import Mathlib

/-!
Shallow embedding of `cmd/zoekt-merge-index/zoekt-merge-small.py`: a merge
policy that groups v16 shard files by repository, filters repository groups
by size and age, greedily packs candidates into compounds bounded by
`MAX_COMPOUND_SIZE`, and executes an external merge per compound, archiving
inputs on success.

Modelling conventions:
* Python `float` timestamps are modelled as `Int` (claims depend only on
  ordering and subtraction); byte sizes are `Nat`.
* `pathlib.Path` values are modelled as `String`s with `/` separators;
  `Path.name`, `Path.suffix` and `Path.parent` are re-implemented below
  following CPython's `PurePath` semantics.
* Filesystem and subprocess effects are modelled as data: the external
  merge is a parameter `merge : String → Proc` from the stdin payload to
  the finished process, and `run_merge` returns the files it would write
  and the renames it would perform.
-/

/-- Constant `MAX_REPO_SIZE = 1024 * 1024 * 100` (line 15). -/
def MAX_REPO_SIZE : Nat := 1024 * 1024 * 100

/-- Constant `MAX_COMPOUND_SIZE = 2 * 1024 * 1024 * 1024` (line 16). -/
def MAX_COMPOUND_SIZE : Nat := 2 * 1024 * 1024 * 1024

/-- Constant `MIN_AGE_SECONDS = 24 * 60 * 60` (line 17). -/
def MIN_AGE_SECONDS : Int := 24 * 60 * 60

/-- Index of the first occurrence of `pat` in a character list: Python's
`str.find` returning `none` for `-1`. -/
def findSub (pat : List Char) : List Char → Option Nat
  | [] => if pat.isEmpty then some 0 else none
  | c :: cs => if pat.isPrefixOf (c :: cs) then some 0 else (findSub pat cs).map (· + 1)

/-- Split a character list on a separator character (CPython splits path
strings on `/` to obtain the parts of a `PurePath`). -/
def splitOnCharGo (sep : Char) (acc : List Char) : List Char → List (List Char)
  | [] => [acc.reverse]
  | c :: cs =>
    if c = sep then acc.reverse :: splitOnCharGo sep [] cs
    else splitOnCharGo sep (c :: acc) cs

/-- The `/`-separated components of a path string. -/
def splitPath (p : String) : List String := (splitOnCharGo '/' [] p.toList).map String.mk

/-- Python `PurePath.name`: the final path component. -/
def pathName (p : String) : String := (splitPath p).getLastD ""

/-- Python `PurePath.suffix`: from CPython, `i = name.rfind('.')`; the suffix is
`name[i:]` when `0 < i < len(name) - 1`, else `''`. -/
def pathSuffix (p : String) : String :=
  let cs := (pathName p).toList
  let j := cs.reverse.indexOf '.'
  if j < cs.length then
    let i := cs.length - 1 - j
    if 0 < i ∧ i < cs.length - 1 then String.mk (cs.drop i) else ""
  else ""

/-- Python `PurePath.parent` for the multi-component paths this policy sees:
everything before the final `/`. -/
def parentDir (p : String) : String :=
  String.intercalate "/" ((splitPath p).dropLast)

/-- One directory entry as observed by `indexDir.iterdir()` plus its
`stat()` result. -/
structure FileEntry where
  name : String
  is_file : Bool
  st_size : Nat
  st_mtime : Int
deriving DecidableEq, Repr

/-- One `(stat.st_mtime, size, child)` tuple appended in `get_shards`
(line 30). -/
abbrev Item := Int × Nat × String

/-- The test `'_v16' in child.name` (line 24). -/
def hasV16 (name : String) : Bool := (findSub "_v16".toList name.toList).isSome

/-- The slice `name[:name.find('_v16')]` (line 27): the characters before the first
occurrence of the version marker. Only reached when `hasV16` holds, so the
`none` arm is inert. -/
def repoOf (name : String) : String :=
  match findSub "_v16".toList name.toList with
  | some i => String.mk (name.toList.take i)
  | none => name

/-- The update `shards[repo].append(item)` on a `defaultdict(list)` (line 30):
append to the existing group for `repo`, or create a new group at the end
(Python dicts preserve insertion order). -/
def addShard (groups : List (String × List Item)) (repo : String) (it : Item) :
    List (String × List Item) :=
  match groups with
  | [] => [(repo, [it])]
  | (k, its) :: rest =>
    if k = repo then (k, its ++ [it]) :: rest else (k, its) :: addShard rest repo it

/-- A `(mtime, size, paths)` triple returned by `get_shards` (line 37). -/
structure RepoGroup where
  mtime : Int
  size : Nat
  paths : List String
deriving DecidableEq, Repr

/-- Python `min(t for t, _, _ in items)` (line 34); `items` is never empty. -/
def minMtime (items : List Item) : Int :=
  match items with
  | [] => 0
  | it :: rest => rest.foldl (fun m j => min m j.1) it.1

/-- The body of the `for child in indexDir.iterdir()` loop (lines 23-30):
skip non-files and names without the version marker, then record the
`(mtime, size, path)` tuple under the repo key. -/
def shardStep (groups : List (String × List Item)) (child : FileEntry) :
    List (String × List Item) :=
  if !child.is_file || !hasV16 child.name then groups
  else
    let size := if pathSuffix child.name = ".zoekt" then child.st_size else 0
    addShard groups (repoOf child.name) (child.st_mtime, size, child.name)

/-- Function `get_shards` (lines 19-39): group v16 files by repo prefix; only
`.zoekt` files contribute their byte size. -/
def get_shards (entries : List FileEntry) : List RepoGroup :=
  let shards := entries.foldl shardStep []
  shards.map fun g =>
    { mtime := minMtime g.2
      size := (g.2.map fun i => i.2.1).sum
      paths := g.2.map fun i => i.2.2 }

/-- Python `≤` on lists of strings (lexicographic), used as the final
tie-break when `sorted(repos)` compares the `paths` components. -/
def pathsLe : List String → List String → Bool
  | [], _ => true
  | _ :: _, [] => false
  | a :: as, b :: bs => if a < b then true else if a = b then pathsLe as bs else false

/-- Python tuple `≤` on `(mtime, size, paths)` triples, as used by
`sorted(repos)` (line 45). -/
def repoLe (a b : RepoGroup) : Bool :=
  if a.mtime < b.mtime then true
  else if b.mtime < a.mtime then false
  else if a.size < b.size then true
  else if b.size < a.size then false
  else pathsLe a.paths b.paths

/-- Python `sorted(repos)` (line 45). -/
def sortRepos (repos : List RepoGroup) : List RepoGroup := repos.mergeSort repoLe

/-- The candidate test of line 46: `size <= MAX_REPO_SIZE and mtime <= min_age`
with `min_age = now - MIN_AGE_SECONDS` (line 44, `now` standing for
`time.time()`). -/
def isCandidate (now : Int) (r : RepoGroup) : Bool :=
  r.size ≤ MAX_REPO_SIZE && r.mtime ≤ now - MIN_AGE_SECONDS

/-- The sorted repos that pass the candidate test, still as triples. -/
def sortedCandidates (repos : List RepoGroup) (now : Int) : List RepoGroup :=
  (sortRepos repos).filter (isCandidate now)

/-- A `(size, paths)` pair as held in `candidates` / `ignored` /
`compounds` (lines 47-67). -/
abbrev Cand := Nat × List String

/-- The `candidates` list built by lines 42-49. -/
def gen_candidates (repos : List RepoGroup) (now : Int) : List Cand :=
  (sortedCandidates repos now).map fun r => (r.size, r.paths)

/-- The `ignored` list built by lines 42-49 (the `else` branch). -/
def gen_ignored (repos : List RepoGroup) (now : Int) : List Cand :=
  ((sortRepos repos).filter fun r => !isCandidate now r).map fun r => (r.size, r.paths)

/-- One iteration of the packing loop (lines 53-67): start the first
compound, or look at `compounds[-1]` and either start a new compound
(when over `MAX_COMPOUND_SIZE`) or grow the last one in place. -/
def packStep (compounds : List Cand) (g : Cand) : List Cand :=
  match compounds.getLast? with
  | none => [g]
  | some cur =>
    if MAX_COMPOUND_SIZE < cur.1 + g.1 then compounds ++ [g]
    else compounds.dropLast ++ [(cur.1 + g.1, cur.2 ++ g.2)]

/-- The `compounds` list built by the loop of lines 52-67. -/
def pack (candidates : List Cand) : List Cand := candidates.foldl packStep []

/-- Recursive presentation of the packing loop: `cs, cp` is the open
compound, the argument list is the remaining candidates. -/
def packGo (cs : Nat) (cp : List String) : List Cand → List Cand
  | [] => [(cs, cp)]
  | g :: gs =>
    if MAX_COMPOUND_SIZE < cs + g.1 then (cs, cp) :: packGo g.1 g.2 gs
    else packGo (cs + g.1) (cp ++ g.2) gs

/-- Version of `pack` without the `foldl`: proved equal to `pack` below. -/
def packRec : List Cand → List Cand
  | [] => []
  | g :: gs => packGo g.1 g.2 gs

/-- Group-level packing: like `packGo`, but a compound is kept as the list
of candidate groups put into it rather than the merged pair. -/
def packGroupsGo (cur : List Cand) (curSize : Nat) : List Cand → List (List Cand)
  | [] => [cur]
  | g :: gs =>
    if MAX_COMPOUND_SIZE < curSize + g.1 then cur :: packGroupsGo [g] g.1 gs
    else packGroupsGo (cur ++ [g]) (curSize + g.1) gs

/-- Group-level view of `pack`: each produced compound is the list of
candidate `(size, paths)` groups it contains. -/
def packGroups : List Cand → List (List Cand)
  | [] => []
  | g :: gs => packGroupsGo [g] g.1 gs

/-- The `totalSizeBytes` of a group-level compound. -/
def compSize (c : List Cand) : Nat := (c.map Prod.fst).sum

/-- Flattened paths of a group-level compound. -/
def compPaths (c : List Cand) : List String := (c.map Prod.snd).flatten

/-- Merge a group-level compound back into a `(size, paths)` pair. -/
def compOf (c : List Cand) : Cand := (compSize c, compPaths c)

/-- Function `gen_compounds` (lines 41-80): the returned value
`[paths for _, paths in compounds]`. The reporting prints of lines 69-78
are side effects with no influence on the result. -/
def gen_compounds (repos : List RepoGroup) (now : Int) : List (List String) :=
  (pack (gen_candidates repos now)).map Prod.snd

/-- A finished `subprocess.run` result: exit status and captured combined
stdout/stderr. -/
structure Proc where
  returncode : Int
  stdout : String
deriving DecidableEq, Repr

/-- Line 100: `'\n'.join(str(p) for p in paths if p.suffix == '.zoekt') + '\n'`,
the stdin payload handed to `zoekt-merge-index -`. -/
def merge_input (paths : List String) : String :=
  String.intercalate "\n" (paths.filter fun p => pathSuffix p = ".zoekt") ++ "\n"

/-- Function `write_status` (lines 82-96), as data: the `(filename, content)` pairs
of the `.paths` file and the `.log` file it writes under
`paths[0].parent / '.scratch'`; `ts` stands for `int(time.time())`. -/
def write_status (proc : Proc) (paths : List String) (ts : Nat) :
    (String × String) × (String × String) :=
  let scratch := parentDir (paths.headD "") ++ "/.scratch"
  let status := if proc.returncode = 0 then "success" else "failed"
  ((scratch ++ "/" ++ toString ts ++ "-" ++ status ++ ".paths",
    String.intercalate "\n" paths ++ "\n"),
   (scratch ++ "/" ++ toString ts ++ "-" ++ status ++ ".log", proc.stdout))

/-- The effects of `run_merge` on one compound: the two status files
written and the renames performed (source, destination), in order. -/
structure MergeEffects where
  statusFile : String × String
  logFile : String × String
  moves : List (String × String)
deriving DecidableEq, Repr

/-- Function `run_merge` (lines 98-115), as data. `merge` is the external
`zoekt-merge-index` invocation, mapping the stdin payload to the finished
process. On failure (`returncode != 0`) the function returns before the
rename loop; on success every path of the compound is renamed into
`paths[0].parent / '.scratch/bak'` keeping its filename. -/
def run_merge (merge : String → Proc) (paths : List String) (ts : Nat) : MergeEffects :=
  let shards := merge_input paths
  let proc := merge shards
  let status := write_status proc paths ts
  let moves :=
    if proc.returncode ≠ 0 then []
    else
      let index_dir := parentDir (paths.headD "")
      paths.map fun p => (p, index_dir ++ "/.scratch/bak/" ++ pathName p)
  { statusFile := status.1, logFile := status.2, moves := moves }

/-- The executor loop of `main` (lines 129-131): each compound is run in
order, one `run_merge` per compound. -/
def run_all (merge : String → Proc) (compounds : List (List String)) (ts : Nat) :
    List MergeEffects :=
  compounds.map fun c => run_merge merge c ts

/-- The spec's candidate ordering: ascending lexicographic on
`(oldestModifiedAt, totalSizeBytes)`. -/
def lexLe (a b : RepoGroup) : Prop :=
  a.mtime < b.mtime ∨ (a.mtime = b.mtime ∧ a.size ≤ b.size)

/-- Scenario of the spec's section 8: ten repository groups of 300 MiB
each, all older than `MIN_AGE_SECONDS` at time `c6Now`. -/
def c6Repos : List RepoGroup :=
  (List.range 10).map fun i =>
    { mtime := (i : Int), size := 300 * 1024 * 1024,
      paths := ["r" ++ toString i ++ "_v16.zoekt"] }

/-- Observation time for the ten-repo scenario: far beyond the age floor. -/
def c6Now : Int := 100000

/-- The same ten groups fed to the packer directly as candidates. -/
def c6Cands : List Cand :=
  (List.range 10).map fun i =>
    (300 * 1024 * 1024, ["r" ++ toString i ++ "_v16.zoekt"])

/-! ## Packer lemmas -/

/-- Evaluating `packStep` on a nonempty compound list, written with the last
compound explicit. -/
theorem packStep_concat (acc : List Cand) (cur g : Cand) :
    packStep (acc ++ [cur]) g =
      if MAX_COMPOUND_SIZE < cur.1 + g.1 then (acc ++ [cur]) ++ [g]
      else acc ++ [(cur.1 + g.1, cur.2 ++ g.2)] := by
  simp [packStep, List.getLast?_concat, List.dropLast_concat]

/-- Folding the packing step from a state with last compound `(cs, cp)`
continues exactly as the recursive presentation `packGo`. -/
theorem foldl_packStep_concat (gs : List Cand) :
    ∀ (acc : List Cand) (cs : Nat) (cp : List String),
      List.foldl packStep (acc ++ [(cs, cp)]) gs = acc ++ packGo cs cp gs := by
  induction gs with
  | nil => intro acc cs cp; simp [packGo]
  | cons g gs ih =>
    intro acc cs cp
    obtain ⟨gsz, gps⟩ := g
    rw [List.foldl_cons, packStep_concat]
    simp only [packGo]
    by_cases h : MAX_COMPOUND_SIZE < cs + gsz
    · rw [if_pos h, if_pos h, ih (acc ++ [(cs, cp)]) gsz gps]
      simp
    · rw [if_neg h, if_neg h]
      exact ih acc (cs + gsz) (cp ++ gps)

/-- The source's fold (`pack`) equals the recursive presentation. -/
theorem pack_eq_packRec (l : List Cand) : pack l = packRec l := by
  cases l with
  | nil => rfl
  | cons g gs =>
    show List.foldl packStep (packStep [] g) gs = packRec (g :: gs)
    have h0 : packStep [] g = [] ++ [(g.1, g.2)] := by simp [packStep]
    rw [h0, foldl_packStep_concat gs [] g.1 g.2]
    rfl

/-- The worker `packGo` computes the merged `(size, paths)` pairs of the group-level
packing, provided the open compound's summary is consistent. -/
theorem packGo_eq_packGroupsGo (gs : List Cand) :
    ∀ (cur : List Cand),
      packGo (compSize cur) (compPaths cur) gs =
        (packGroupsGo cur (compSize cur) gs).map compOf := by
  induction gs with
  | nil => intro cur; simp [packGo, packGroupsGo, compOf]
  | cons g gs ih =>
    intro cur
    simp only [packGo, packGroupsGo]
    by_cases h : MAX_COMPOUND_SIZE < compSize cur + g.1
    · simp only [h, if_pos, List.map_cons]
      have hs : g.1 = compSize [g] := by simp [compSize]
      have hp : g.2 = compPaths [g] := by simp [compPaths]
      rw [hs, hp, ih [g], compOf]
    · simp only [h, if_neg, ite_false]
      have hs : compSize cur + g.1 = compSize (cur ++ [g]) := by
        simp [compSize, List.map_append]
      have hp : compPaths cur ++ g.2 = compPaths (cur ++ [g]) := by
        simp [compPaths, List.map_append]
      rw [hs, hp, ih (cur ++ [g]), ← hs]

/-- The fold `pack` is the group-level packing with each compound's groups merged. -/
theorem pack_eq_packGroups (l : List Cand) : pack l = (packGroups l).map compOf := by
  rw [pack_eq_packRec]
  cases l with
  | nil => rfl
  | cons g gs =>
    show packGo g.1 g.2 gs = (packGroupsGo [g] g.1 gs).map compOf
    have hs : g.1 = compSize [g] := by simp [compSize]
    have hp : g.2 = compPaths [g] := by simp [compPaths]
    rw [hs, hp, packGo_eq_packGroupsGo gs [g], ← hs]

/-- Flattening the group-level packing returns exactly the candidates. -/
theorem packGroupsGo_flatten (gs : List Cand) :
    ∀ (cur : List Cand) (s : Nat), (packGroupsGo cur s gs).flatten = cur ++ gs := by
  induction gs with
  | nil => intro cur s; simp [packGroupsGo]
  | cons g gs ih =>
    intro cur s
    simp only [packGroupsGo]
    by_cases h : MAX_COMPOUND_SIZE < s + g.1
    · simp only [h, if_pos, List.flatten_cons]
      rw [ih [g] g.1]
      simp
    · simp only [h, if_neg, ite_false]
      rw [ih (cur ++ [g]) (s + g.1)]
      simp

/-- No candidate group is dropped, duplicated or split. -/
theorem packGroups_flatten (l : List Cand) : (packGroups l).flatten = l := by
  cases l with
  | nil => rfl
  | cons g gs =>
    show (packGroupsGo [g] g.1 gs).flatten = g :: gs
    rw [packGroupsGo_flatten gs [g] g.1]
    rfl

/-- Every compound of the group-level packing is a nonempty group list. -/
theorem packGroupsGo_ne_nil (gs : List Cand) :
    ∀ (cur : List Cand) (s : Nat), cur ≠ [] →
      ∀ c ∈ packGroupsGo cur s gs, c ≠ [] := by
  induction gs with
  | nil =>
    intro cur s hcur c hc
    simp only [packGroupsGo, List.mem_singleton] at hc
    exact hc ▸ hcur
  | cons g gs ih =>
    intro cur s hcur c hc
    simp only [packGroupsGo] at hc
    by_cases h : MAX_COMPOUND_SIZE < s + g.1
    · simp only [h, if_pos, List.mem_cons] at hc
      rcases hc with rfl | hc
      · exact hcur
      · exact ih [g] g.1 (by simp) c hc
    · simp only [h, if_neg, ite_false] at hc
      exact ih (cur ++ [g]) (s + g.1) (by simp) c hc

/-- Every compound of `packGroups` is a nonempty group list. -/
theorem packGroups_ne_nil (l : List Cand) : ∀ c ∈ packGroups l, c ≠ [] := by
  cases l with
  | nil => intro c hc; simp [packGroups] at hc
  | cons g gs => exact packGroupsGo_ne_nil gs [g] g.1 (by simp)

/-- Size-bound invariant: calling the packer with an admissible open
compound, every emitted compound is within the cap or is a single
oversized group. -/
theorem packGroupsGo_size (gs : List Cand) :
    ∀ (cur : List Cand),
      (compSize cur ≤ MAX_COMPOUND_SIZE ∨ ∃ g0, cur = [g0] ∧ MAX_COMPOUND_SIZE < g0.1) →
      ∀ c ∈ packGroupsGo cur (compSize cur) gs,
        compSize c ≤ MAX_COMPOUND_SIZE ∨ ∃ g0, c = [g0] ∧ MAX_COMPOUND_SIZE < g0.1 := by
  induction gs with
  | nil =>
    intro cur hcur c hc
    simp only [packGroupsGo, List.mem_singleton] at hc
    exact hc ▸ hcur
  | cons g gs ih =>
    intro cur hcur c hc
    simp only [packGroupsGo] at hc
    by_cases h : MAX_COMPOUND_SIZE < compSize cur + g.1
    · simp only [h, if_pos, List.mem_cons] at hc
      rcases hc with rfl | hc
      · exact hcur
      · have hg : g.1 = compSize [g] := by simp [compSize]
        have hadm : compSize [g] ≤ MAX_COMPOUND_SIZE ∨
            ∃ g0, ([g] : List Cand) = [g0] ∧ MAX_COMPOUND_SIZE < g0.1 := by
          by_cases hgle : g.1 ≤ MAX_COMPOUND_SIZE
          · left; simpa [compSize] using hgle
          · right; exact ⟨g, rfl, Nat.lt_of_not_le hgle⟩
        rw [hg] at hc
        exact ih [g] hadm c hc
    · simp only [h, if_neg, ite_false] at hc
      have hs : compSize cur + g.1 = compSize (cur ++ [g]) := by
        simp [compSize, List.map_append]
      rw [hs] at hc h
      exact ih (cur ++ [g]) (Or.inl (Nat.le_of_not_lt h)) c hc

/-- Flattened paths of the group-level compounds are the flattened paths
of the underlying groups. -/
theorem flatten_map_compPaths (G : List (List Cand)) :
    (G.map compPaths).flatten = (G.flatten.map Prod.snd).flatten := by
  induction G with
  | nil => rfl
  | cons c G ih =>
    simp only [List.map_cons, List.flatten_cons, List.map_append, List.flatten_append, ih,
      compPaths]

/-- C1: for every candidate sequence given to the packer (each candidate
within `MAX_REPO_SIZE`), every produced compound's total size is at most
`MAX_COMPOUND_SIZE`, except that a compound may exceed the cap only when
it consists of exactly one group whose own size already exceeds the cap. -/
theorem packer_size_bound (l : List Cand) (hsmall : ∀ g ∈ l, g.1 ≤ MAX_REPO_SIZE) :
    ∀ c ∈ packGroups l,
      compSize c ≤ MAX_COMPOUND_SIZE ∨ ∃ g0, c = [g0] ∧ MAX_COMPOUND_SIZE < g0.1 := by
  cases l with
  | nil => intro c hc; simp [packGroups] at hc
  | cons g gs =>
    intro c hc
    have hg : g.1 = compSize [g] := by simp [compSize]
    have hadm : compSize [g] ≤ MAX_COMPOUND_SIZE ∨
        ∃ g0, ([g] : List Cand) = [g0] ∧ MAX_COMPOUND_SIZE < g0.1 := by
      by_cases hle : g.1 ≤ MAX_COMPOUND_SIZE
      · left; simpa [compSize] using hle
      · right; exact ⟨g, rfl, Nat.lt_of_not_le hle⟩
    have hc' : c ∈ packGroupsGo [g] (compSize [g]) gs := by
      rw [← hg]; exact hc
    exact packGroupsGo_size gs [g] hadm c hc'

/-- Witness for `packer_size_bound` at a one-candidate input. -/
theorem packer_size_bound_witness :
    compSize [((5 : Nat), ["a_v16.zoekt"])] ≤ MAX_COMPOUND_SIZE ∨
      ∃ g0, [((5 : Nat), ["a_v16.zoekt"])] = [g0] ∧ MAX_COMPOUND_SIZE < g0.1 :=
  packer_size_bound [(5, ["a_v16.zoekt"])] (by decide) [(5, ["a_v16.zoekt"])] (by decide)

/-- C2: the packer never splits a candidate group across two compounds:
flattening the group-level compounds returns exactly the candidate
sequence (so every candidate lands wholly, contiguously and exactly once),
and the source's packing is the group-level packing with each compound's
groups merged. -/
theorem packer_no_split (l : List Cand) :
    (packGroups l).flatten = l ∧ pack l = (packGroups l).map compOf :=
  ⟨packGroups_flatten l, pack_eq_packGroups l⟩

/-- C3: conservation across filter and packer: the paths of all produced
compounds plus the paths of all ignored groups are a permutation of the
paths of the input groups. -/
theorem gen_compounds_conservation (repos : List RepoGroup) (now : Int) :
    ((gen_compounds repos now).flatten ++
        ((gen_ignored repos now).map Prod.snd).flatten).Perm
      ((repos.map RepoGroup.paths).flatten) := by
  have hcomp : (gen_compounds repos now).flatten
      = (((sortRepos repos).filter (isCandidate now)).map RepoGroup.paths).flatten := by
    unfold gen_compounds
    rw [pack_eq_packGroups, List.map_map]
    have h1 : (Prod.snd ∘ compOf) = compPaths := rfl
    rw [h1, flatten_map_compPaths, packGroups_flatten]
    unfold gen_candidates sortedCandidates
    rw [List.map_map]
    rfl
  have hign : ((gen_ignored repos now).map Prod.snd).flatten
      = (((sortRepos repos).filter fun r => !isCandidate now r).map RepoGroup.paths).flatten := by
    unfold gen_ignored
    rw [List.map_map]
    rfl
  rw [hcomp, hign, ← List.flatten_append, ← List.map_append]
  have hsort : (sortRepos repos).Perm repos := List.mergeSort_perm repos repoLe
  have hperm : ((sortRepos repos).filter (isCandidate now) ++
      ((sortRepos repos).filter fun r => !isCandidate now r)).Perm repos :=
    (List.filter_append_perm _ _).trans hsort
  exact (hperm.map RepoGroup.paths).flatten

/-- C4: a group is classified as a candidate iff it is small enough and
old enough; an over-`MAX_REPO_SIZE` group always lands in `ignored`
regardless of age, and a too-recent group always lands in `ignored`
regardless of size. -/
theorem candidate_filter_spec (now : Int) (r : RepoGroup) (repos : List RepoGroup)
    (hmem : r ∈ repos) :
    (isCandidate now r = true ↔
      (r.size ≤ MAX_REPO_SIZE ∧ r.mtime ≤ now - MIN_AGE_SECONDS))
    ∧ (r.size, r.paths) ∈
        (if isCandidate now r then gen_candidates repos now else gen_ignored repos now)
    ∧ (MAX_REPO_SIZE < r.size → (r.size, r.paths) ∈ gen_ignored repos now)
    ∧ (now - MIN_AGE_SECONDS < r.mtime → (r.size, r.paths) ∈ gen_ignored repos now) := by
  have hiff : isCandidate now r = true ↔
      (r.size ≤ MAX_REPO_SIZE ∧ r.mtime ≤ now - MIN_AGE_SECONDS) := by
    simp [isCandidate]
  have hsorted : r ∈ sortRepos repos := by
    unfold sortRepos
    exact List.mem_mergeSort.mpr hmem
  have hign : isCandidate now r = false → (r.size, r.paths) ∈ gen_ignored repos now := by
    intro hfalse
    unfold gen_ignored
    exact List.mem_map_of_mem _ (List.mem_filter.mpr ⟨hsorted, by simp [hfalse]⟩)
  refine ⟨hiff, ?_, ?_, ?_⟩
  · by_cases hcand : isCandidate now r = true
    · rw [if_pos hcand]
      unfold gen_candidates sortedCandidates
      exact List.mem_map_of_mem _ (List.mem_filter.mpr ⟨hsorted, hcand⟩)
    · rw [if_neg (by simpa using hcand)]
      exact hign (by simpa using hcand)
  · intro hbig
    refine hign ?_
    rw [Bool.eq_false_iff]
    intro htrue
    exact absurd (hiff.mp htrue).1 (Nat.not_le_of_lt hbig)
  · intro hnew
    refine hign ?_
    rw [Bool.eq_false_iff]
    intro htrue
    exact absurd (hiff.mp htrue).2 (not_le_of_lt hnew)

/-- Witness for `candidate_filter_spec`: a small, day-old group is placed
in the candidate list. -/
theorem candidate_filter_spec_witness :
    ((5 : Nat), ["a_v16.zoekt"]) ∈
      gen_candidates [⟨0, 5, ["a_v16.zoekt"]⟩] 1000000 := by
  have h := candidate_filter_spec 1000000 ⟨0, 5, ["a_v16.zoekt"]⟩
    [⟨0, 5, ["a_v16.zoekt"]⟩] (by decide)
  have h2 := h.2.1
  rw [if_pos (by decide)] at h2
  exact h2

/-- The lexicographic string-list order is total. -/
theorem pathsLe_total : ∀ (x y : List String), (pathsLe x y || pathsLe y x) = true := by
  intro x
  induction x with
  | nil => intro y; simp [pathsLe]
  | cons a as ih =>
    intro y
    cases y with
    | nil => simp [pathsLe]
    | cons b bs =>
      simp only [pathsLe]
      rcases lt_trichotomy a b with h | h | h
      · rw [if_pos h]; simp
      · subst h
        simp only [lt_irrefl, if_false, eq_self_iff_true, if_true]
        exact ih bs
      · rw [if_neg (asymm h), if_neg (ne_of_gt h), if_pos h]
        simp

/-- The lexicographic string-list order is transitive. -/
theorem pathsLe_trans : ∀ (x y z : List String),
    pathsLe x y = true → pathsLe y z = true → pathsLe x z = true := by
  intro x
  induction x with
  | nil => intro y z _ _; simp [pathsLe]
  | cons a as ih =>
    intro y z hxy hyz
    cases y with
    | nil => simp [pathsLe] at hxy
    | cons b bs =>
      cases z with
      | nil => simp [pathsLe] at hyz
      | cons c cs =>
        simp only [pathsLe] at hxy hyz ⊢
        by_cases hab : a < b
        · by_cases hbc : b < c
          · rw [if_pos (lt_trans hab hbc)]
          · by_cases hbc2 : b = c
            · subst hbc2; rw [if_pos hab]
            · rw [if_neg hbc, if_neg hbc2] at hyz; exact absurd hyz (by simp)
        · by_cases hab2 : a = b
          · subst hab2
            rw [if_neg hab, if_pos rfl] at hxy
            by_cases hbc : a < c
            · rw [if_pos hbc]
            · by_cases hbc2 : a = c
              · subst hbc2
                rw [if_neg hab, if_pos rfl] at hyz ⊢
                exact ih bs cs hxy hyz
              · rw [if_neg hbc, if_neg hbc2] at hyz; exact absurd hyz (by simp)
          · rw [if_neg hab, if_neg hab2] at hxy; exact absurd hxy (by simp)

/-- The comparison `repoLe` unfolded into the lexicographic description of Python tuple
comparison. -/
theorem repoLe_eq_true_iff (a b : RepoGroup) : repoLe a b = true ↔
    (a.mtime < b.mtime ∨ (a.mtime = b.mtime ∧
      (a.size < b.size ∨ (a.size = b.size ∧ pathsLe a.paths b.paths = true)))) := by
  unfold repoLe
  by_cases h1 : a.mtime < b.mtime
  · simp [h1]
  · by_cases h2 : b.mtime < a.mtime
    · have hne : a.mtime ≠ b.mtime := ne_of_gt h2
      simp [h1, h2, hne]
    · have heq : a.mtime = b.mtime := le_antisymm (le_of_not_lt h2) (le_of_not_lt h1)
      by_cases h3 : a.size < b.size
      · simp [h1, h2, h3, heq]
      · by_cases h4 : b.size < a.size
        · have hsne : a.size ≠ b.size := ne_of_gt h4
          simp [h1, h2, h3, h4, hsne]
        · have hseq : a.size = b.size := Nat.le_antisymm (Nat.le_of_not_lt h4) (Nat.le_of_not_lt h3)
          simp [h1, h2, h3, h4, heq, hseq]

/-- Python tuple comparison is total. -/
theorem repoLe_total (a b : RepoGroup) : (repoLe a b || repoLe b a) = true := by
  rcases lt_trichotomy a.mtime b.mtime with h | h | h
  · simp [Bool.or_eq_true, repoLe_eq_true_iff, h]
  · rcases lt_trichotomy a.size b.size with h2 | h2 | h2
    · simp [Bool.or_eq_true, repoLe_eq_true_iff, h, h2]
    · have hp := pathsLe_total a.paths b.paths
      simp only [Bool.or_eq_true] at hp ⊢
      rcases hp with hp | hp
      · exact Or.inl ((repoLe_eq_true_iff a b).mpr (Or.inr ⟨h, Or.inr ⟨h2, hp⟩⟩))
      · exact Or.inr ((repoLe_eq_true_iff b a).mpr (Or.inr ⟨h.symm, Or.inr ⟨h2.symm, hp⟩⟩))
    · simp [Bool.or_eq_true, repoLe_eq_true_iff, h, h2]
  · simp [Bool.or_eq_true, repoLe_eq_true_iff, h]

/-- Python tuple comparison is transitive. -/
theorem repoLe_trans (a b c : RepoGroup) (hab : repoLe a b = true)
    (hbc : repoLe b c = true) : repoLe a c = true := by
  rw [repoLe_eq_true_iff] at hab hbc ⊢
  rcases hab with h1 | ⟨e1, s1⟩
  · rcases hbc with h2 | ⟨e2, _⟩
    · exact Or.inl (lt_trans h1 h2)
    · exact Or.inl (by rw [← e2]; exact h1)
  · rcases hbc with h2 | ⟨e2, s2⟩
    · exact Or.inl (by rw [e1]; exact h2)
    · refine Or.inr ⟨e1.trans e2, ?_⟩
      rcases s1 with hs1 | ⟨es1, p1⟩
      · rcases s2 with hs2 | ⟨es2, _⟩
        · exact Or.inl (lt_trans hs1 hs2)
        · exact Or.inl (by rw [← es2]; exact hs1)
      · rcases s2 with hs2 | ⟨es2, p2⟩
        · exact Or.inl (by rw [es1]; exact hs2)
        · exact Or.inr ⟨es1.trans es2, pathsLe_trans _ _ _ p1 p2⟩

/-- Python tuple comparison refines the spec's `(mtime, size)` ordering. -/
theorem lexLe_of_repoLe {a b : RepoGroup} (h : repoLe a b = true) : lexLe a b := by
  rw [repoLe_eq_true_iff] at h
  rcases h with h | ⟨e, s⟩
  · exact Or.inl h
  · refine Or.inr ⟨e, ?_⟩
    rcases s with hs | ⟨es, _⟩
    · exact Nat.le_of_lt hs
    · exact Nat.le_of_eq es

/-- C8: the sort is a permutation of the inventory, the candidate
sequence is ascending in `(oldestModifiedAt, totalSizeBytes)`, and the
packer consumes exactly that sequence (so compound order follows it). -/
theorem candidates_sorted (repos : List RepoGroup) (now : Int) :
    (sortRepos repos).Perm repos
    ∧ List.Pairwise lexLe (sortedCandidates repos now)
    ∧ gen_candidates repos now =
        (sortedCandidates repos now).map fun r => (r.size, r.paths) := by
  refine ⟨List.mergeSort_perm repos repoLe, ?_, rfl⟩
  have hs : List.Pairwise (fun a b => repoLe a b = true) (sortRepos repos) := by
    have h := List.sorted_mergeSort
      (fun a b c hab hbc => repoLe_trans a b c hab hbc)
      (fun a b => repoLe_total a b) repos
    exact h
  have hsub : List.Pairwise (fun a b => repoLe a b = true) (sortedCandidates repos now) :=
    List.Pairwise.sublist (List.filter_sublist _) hs
  exact hsub.imp fun h => lexLe_of_repoLe h

/-- The helper `addShard` keeps every group's item list nonempty. -/
theorem addShard_ne_nil (repo : String) (it : Item) :
    ∀ (groups : List (String × List Item)),
      (∀ kv ∈ groups, kv.2 ≠ []) → ∀ kv ∈ addShard groups repo it, kv.2 ≠ [] := by
  intro groups
  induction groups with
  | nil =>
    intro _ kv hkv
    simp only [addShard, List.mem_singleton] at hkv
    subst hkv
    simp
  | cons g rest ih =>
    intro hall kv hkv
    obtain ⟨k, its⟩ := g
    simp only [addShard] at hkv
    by_cases hk : k = repo
    · rw [if_pos hk] at hkv
      rcases List.mem_cons.mp hkv with rfl | hkv2
      · simp
      · exact hall kv (List.mem_cons_of_mem _ hkv2)
    · rw [if_neg hk] at hkv
      rcases List.mem_cons.mp hkv with rfl | hkv2
      · exact hall (k, its) (List.mem_cons_self _ _)
      · exact ih (fun kv2 h2 => hall kv2 (List.mem_cons_of_mem _ h2)) kv hkv2

/-- The inventory fold only ever produces groups with nonempty item
lists. -/
theorem foldl_shardStep_ne_nil (entries : List FileEntry) :
    ∀ (acc : List (String × List Item)), (∀ kv ∈ acc, kv.2 ≠ []) →
      ∀ kv ∈ entries.foldl shardStep acc, kv.2 ≠ [] := by
  induction entries with
  | nil => intro acc hacc kv hkv; exact hacc kv hkv
  | cons e es ih =>
    intro acc hacc kv hkv
    rw [List.foldl_cons] at hkv
    refine ih (shardStep acc e) ?_ kv hkv
    intro kv2 hkv2
    unfold shardStep at hkv2
    by_cases hskip : (!e.is_file || !hasV16 e.name) = true
    · rw [if_pos hskip] at hkv2; exact hacc kv2 hkv2
    · rw [if_neg hskip] at hkv2
      exact addShard_ne_nil _ _ acc hacc kv2 hkv2

/-- Every repository group of the inventory has at least one path. -/
theorem get_shards_paths_ne_nil (entries : List FileEntry) :
    ∀ g ∈ get_shards entries, g.paths ≠ [] := by
  intro g hg
  unfold get_shards at hg
  obtain ⟨kv, hkv, rfl⟩ := List.mem_map.mp hg
  have h2 := foldl_shardStep_ne_nil entries [] (by simp) kv hkv
  simpa using h2

/-- C10: every compound produced from an inventory is nonempty, so the
executor's use of `paths[0]` is well-defined. -/
theorem gen_compounds_nonempty (entries : List FileEntry) (now : Int) :
    ∀ c ∈ gen_compounds (get_shards entries) now, c ≠ [] := by
  intro c hc
  unfold gen_compounds at hc
  rw [pack_eq_packGroups, List.map_map] at hc
  obtain ⟨grp, hgrp, rfl⟩ := List.mem_map.mp hc
  have hne := packGroups_ne_nil _ grp hgrp
  obtain ⟨g0, grest, rfl⟩ := List.exists_cons_of_ne_nil hne
  have hg0 : g0 ∈ gen_candidates (get_shards entries) now := by
    have hmem : g0 ∈ (packGroups (gen_candidates (get_shards entries) now)).flatten :=
      List.mem_flatten.mpr ⟨g0 :: grest, hgrp, List.mem_cons_self _ _⟩
    rwa [packGroups_flatten] at hmem
  obtain ⟨r, hr, hreq⟩ := List.mem_map.mp hg0
  have hrs : r ∈ get_shards entries := by
    have h1 : r ∈ sortRepos (get_shards entries) := List.mem_of_mem_filter hr
    exact List.mem_mergeSort.mp h1
  have hpne : r.paths ≠ [] := get_shards_paths_ne_nil entries r hrs
  have hsplit : (Prod.snd ∘ compOf) (g0 :: grest) = g0.2 ++ (grest.map Prod.snd).flatten := by
    simp [compOf, compPaths]
  rw [hsplit]
  have hg02 : g0.2 = r.paths := by rw [← hreq]
  rw [hg02]
  intro hemp
  exact hpne (List.append_eq_nil.mp hemp).1

unseal List.merge List.mergeSort in
/-- Witness for `gen_compounds_nonempty` on a one-file inventory. -/
theorem gen_compounds_nonempty_witness : (["r_v16.zoekt"] : List String) ≠ [] :=
  gen_compounds_nonempty [⟨"r_v16.zoekt", true, 5, 0⟩] 1000000 ["r_v16.zoekt"] (by decide)

/-- C9: each compound is executed exactly once, in order; whatever the
outcomes in `cs₁` (failures included), `c` and then `cs₂` still run. -/
theorem run_all_no_block (merge : String → Proc) (ts : Nat)
    (cs₁ cs₂ : List (List String)) (c : List String) :
    run_all merge (cs₁ ++ c :: cs₂) ts =
      run_all merge cs₁ ts ++ run_merge merge c ts :: run_all merge cs₂ ts
    ∧ (run_all merge (cs₁ ++ c :: cs₂) ts).length = cs₁.length + 1 + cs₂.length := by
  constructor
  · simp [run_all]
  · simp [run_all]
    omega

/-- Folding string concatenation distributes over a prepended string. -/
theorem foldl_append_str (xs : List String) :
    ∀ (a b : String), List.foldl (fun r s => r ++ s) (a ++ b) xs
      = a ++ List.foldl (fun r s => r ++ s) b xs := by
  induction xs with
  | nil => intro a b; simp
  | cons x xs ih =>
    intro a b
    simp only [List.foldl_cons]
    rw [String.append_assoc, ih]

/-- The fold `String.join` unfolds one element at a time. -/
theorem join_cons (x : String) (xs : List String) :
    String.join (x :: xs) = x ++ String.join xs := by
  show List.foldl (fun r s => r ++ s) ("" ++ x) xs = x ++ List.foldl (fun r s => r ++ s) "" xs
  rw [String.empty_append, ← String.append_empty x, foldl_append_str, String.append_empty]

/-- The worker of `String.intercalate` with separator `"\n"`, followed by
a final newline, produces one line per element. -/
theorem intercalate_go_newline (as : List String) :
    ∀ (acc : String), String.intercalate.go acc "\n" as ++ "\n"
      = acc ++ "\n" ++ String.join (as.map fun s => s ++ "\n") := by
  induction as with
  | nil => intro acc; simp [String.intercalate.go, String.join]
  | cons a as ih =>
    intro acc
    show String.intercalate.go (acc ++ "\n" ++ a) "\n" as ++ "\n" = _
    rw [ih (acc ++ "\n" ++ a)]
    simp [join_cons, String.append_assoc]

/-- Python's `'\n'.join(l) + '\n'` writes every element of a nonempty `l`
on its own newline-terminated line. -/
theorem intercalate_newline_join (l : List String) (h : l ≠ []) :
    String.intercalate "\n" l ++ "\n" = String.join (l.map fun s => s ++ "\n") := by
  cases l with
  | nil => exact absurd rfl h
  | cons a as =>
    show String.intercalate.go a "\n" as ++ "\n" = _
    rw [intercalate_go_newline as a]
    simp [join_cons, String.append_assoc]

/-- C5: on merge success a `<ts>-success.paths` file listing every input
path (one per line) and a `<ts>-success.log` file with the captured output
are written under the scratch directory, and every original path is moved
into the backup directory keeping its filename; on failure the
`<ts>-failed.paths` / `<ts>-failed.log` pair is written and nothing is
moved. -/
theorem run_merge_effects (merge : String → Proc) (paths : List String) (ts : Nat)
    (hne : paths ≠ []) :
    ((merge (merge_input paths)).returncode = 0 →
      run_merge merge paths ts =
        { statusFile := (parentDir (paths.headD "") ++ "/.scratch" ++ "/" ++ toString ts
              ++ "-" ++ "success" ++ ".paths",
            String.join (paths.map fun s => s ++ "\n")),
          logFile := (parentDir (paths.headD "") ++ "/.scratch" ++ "/" ++ toString ts
              ++ "-" ++ "success" ++ ".log",
            (merge (merge_input paths)).stdout),
          moves := paths.map fun p =>
            (p, parentDir (paths.headD "") ++ "/.scratch/bak/" ++ pathName p) })
    ∧ ((merge (merge_input paths)).returncode ≠ 0 →
      run_merge merge paths ts =
        { statusFile := (parentDir (paths.headD "") ++ "/.scratch" ++ "/" ++ toString ts
              ++ "-" ++ "failed" ++ ".paths",
            String.join (paths.map fun s => s ++ "\n")),
          logFile := (parentDir (paths.headD "") ++ "/.scratch" ++ "/" ++ toString ts
              ++ "-" ++ "failed" ++ ".log",
            (merge (merge_input paths)).stdout),
          moves := [] }) := by
  constructor
  · intro h0
    unfold run_merge write_status
    rw [← intercalate_newline_join paths hne]
    simp [h0]
  · intro hn0
    unfold run_merge write_status
    rw [← intercalate_newline_join paths hne]
    simp [hn0]

/-- Witness for `run_merge_effects`: a two-file compound under `idx/`
with a succeeding merge. -/
theorem run_merge_effects_witness :
    run_merge (fun _ => ⟨0, "out"⟩) ["idx/a_v16.zoekt", "idx/a_v16.meta"] 7 =
      { statusFile := ("idx/.scratch/7-success.paths", "idx/a_v16.zoekt\nidx/a_v16.meta\n"),
        logFile := ("idx/.scratch/7-success.log", "out"),
        moves := [("idx/a_v16.zoekt", "idx/.scratch/bak/a_v16.zoekt"),
                  ("idx/a_v16.meta", "idx/.scratch/bak/a_v16.meta")] } := by
  have h := (run_merge_effects (fun _ => ⟨0, "out"⟩)
    ["idx/a_v16.zoekt", "idx/a_v16.meta"] 7 (by decide)).1 rfl
  rw [h]
  decide

/-- C7, as stated, fails for a compound with no index files: the code
transmits a lone newline while zero paths, one per line, is the empty
payload. -/
theorem merge_input_counterexample :
    ¬(merge_input ["idx/a_v16.meta"] =
      String.join (((["idx/a_v16.meta"].filter fun p => pathSuffix p = ".zoekt")).map
        fun s => s ++ "\n")) := by decide

/-- C7 amended: for a compound with at least one index file, the stdin
payload handed to the external merge is exactly the compound's index-file
paths, one per line, newline-terminated, in compound order. -/
theorem merge_input_lines (paths : List String)
    (h : paths.filter (fun p => pathSuffix p = ".zoekt") ≠ []) :
    merge_input paths =
      String.join ((paths.filter fun p => pathSuffix p = ".zoekt").map fun s => s ++ "\n") := by
  unfold merge_input
  exact intercalate_newline_join _ h

/-- Witness for `merge_input_lines`: the meta file is excluded and the
index shard is newline-terminated. -/
theorem merge_input_lines_witness :
    merge_input ["idx/a_v16.zoekt", "idx/a_v16.meta"] = "idx/a_v16.zoekt\n" := by
  have h := merge_input_lines ["idx/a_v16.zoekt", "idx/a_v16.meta"] (by decide)
  rw [h]
  decide

unseal List.merge List.mergeSort in
/-- C6, as stated, fails: with `MAX_REPO_SIZE` = 100 MiB, a 300 MiB group
is never a candidate, so the ten-repo scenario yields no candidates and
no compounds rather than ten candidates and two compounds. -/
theorem ten_repo_scenario_counterexample :
    ¬((gen_candidates c6Repos c6Now).length = 10 ∧
      (gen_compounds c6Repos c6Now).length = 2) := by decide

unseal List.merge List.mergeSort in
/-- C6 amended: all ten 300 MiB groups are ignored by the filter (300 MiB
exceeds `MAX_REPO_SIZE` = 100 MiB), so the pipeline produces no compounds;
the greedy packer applied to the same ten groups directly as candidates
does produce two compounds of 6 and 4 consecutive repos (the claim's
boundary arithmetic). -/
theorem ten_repo_scenario :
    gen_candidates c6Repos c6Now = []
    ∧ gen_compounds c6Repos c6Now = []
    ∧ (gen_ignored c6Repos c6Now).length = 10
    ∧ (packGroups c6Cands).map List.length = [6, 4]
    ∧ (pack c6Cands).map Prod.fst
        = [6 * (300 * 1024 * 1024), 4 * (300 * 1024 * 1024)] := by decide
